import Mathlib

/-!
Verification of the WCC (weakly connected components) label-propagation
application (`examples/analytical_apps/cc/wcc.h`).

The embedding models a graph partitioned across `P` workers.  Vertices are
global indices `Fin n`; `gid` gives the globally unique identifier used as
the label domain, `adj` the outgoing adjacency lists (multi-edges and
self-loops allowed), `owner` the partition owning each vertex.  Each
partition keeps a label store (`comp`), the read-only frontier of the
current superstep (`curr`), and the frontier being built (`nextm`),
mirroring `WCCContext`.  Messages are pairs of a target vertex and a label
value, delivered to the target's owner in the following superstep.

Parallel loops of the source are embedded as folds over lists supplied by a
schedule: any enumeration order (and, for message delivery, duplication) is
allowed, which models the unspecified interleaving of worker threads and of
the messaging channel.  The canonical run instantiates the schedules with
the standard enumerations.
-/

set_option maxRecDepth 4000

/-- A graph distributed over `P` partitions: globally unique identifiers,
outgoing adjacency lists and the owning partition of every vertex. -/
structure WGraph (n P : ℕ) where
  gid : Fin n → ℕ
  adj : Fin n → List (Fin n)
  owner : Fin n → Fin P

/-- Per-partition state of `WCCContext`: the component labels and the two
generation-tagged modified-vertex sets. -/
structure LState (n : ℕ) where
  comp : Fin n → ℕ
  curr : Finset (Fin n)
  nextm : Finset (Fin n)

variable {n P : ℕ}

/-- `atomic_min(a, b)`: lowers the stored value `a` to `min a b`.  The
sequential embedding of grape's compare-and-swap minimum. -/
def atomic_min (a b : ℕ) : ℕ := min a b

/-- One iteration of the inner loop of `PropagateLabelPush`: visit neighbor
`u` with the pushed label `cid`; if `comp_id[u] > cid`, lower it with
`atomic_min` and insert `u` into `next_modified`. -/
def pushOne (cid : ℕ) (ls : LState n) (u : Fin n) : LState n :=
  if cid < ls.comp u then
    { ls with comp := Function.update ls.comp u (atomic_min (ls.comp u) cid),
              nextm := insert u ls.nextm }
  else ls

/-- Processing one frontier vertex `v` in `PropagateLabelPush`: read
`cid = comp_id[v]` once, then relax every outgoing neighbor. -/
def pushVertex (G : WGraph n P) (ls : LState n) (v : Fin n) : LState n :=
  (G.adj v).foldl (pushOne (ls.comp v)) ls

/-- The push loop of `PropagateLabelPush` over a frontier enumeration `L`
(the inner vertices of `curr_modified`, in schedule order). -/
def pushPass (G : WGraph n P) (L : List (Fin n)) (ls : LState n) : LState n :=
  L.foldl (pushVertex G) ls

/-- One message application in `IncEval`'s `ParallelProcess` callback:
if `comp_id[u] > msg` then lower it with `atomic_min` and insert `u` into
`curr_modified`. -/
def drainStep (ls : LState n) (m : Fin n × ℕ) : LState n :=
  if m.2 < ls.comp m.1 then
    { ls with comp := Function.update ls.comp m.1 (atomic_min (ls.comp m.1) m.2),
              curr := insert m.1 ls.curr }
  else ls

/-- Draining a delivered message list. -/
def drain (D : List (Fin n × ℕ)) (ls : LState n) : LState n :=
  D.foldl drainStep ls

/-- `next_modified.ParallelClear()` at the start of `IncEval`. -/
def clearNext (ls : LState n) : LState n :=
  { ls with nextm := ∅ }

/-- `curr_modified.Swap(next_modified)` at the end of both entry points. -/
def swapLS (ls : LState n) : LState n :=
  { ls with curr := ls.nextm, nextm := ls.curr }

/-- `u` is an outer (mirror) vertex of partition `p`: owned elsewhere, yet
adjacent to an inner vertex of `p`. -/
def isOuter (G : WGraph n P) (p : Fin P) (u : Fin n) : Prop :=
  G.owner u ≠ p ∧ ∃ v, G.owner v = p ∧ u ∈ G.adj v

instance (G : WGraph n P) (p : Fin P) (u : Fin n) : Decidable (isOuter G p u) := by
  unfold isOuter; infer_instance

/-- The outer-vertex enumeration of a partition. -/
def outerList (G : WGraph n P) (p : Fin P) : List (Fin n) :=
  (List.finRange n).filter (fun u => decide (isOuter G p u))

/-- The inner-vertex enumeration of a partition. -/
def innerList (G : WGraph n P) (p : Fin P) : List (Fin n) :=
  (List.finRange n).filter (fun v => decide (G.owner v = p))

/-- The inner part of `curr_modified`: the set of push sources the pass
iterates (`ForEach(curr_modified, inner_vertices)`). -/
def frontSet (G : WGraph n P) (p : Fin P) (ls : LState n) : Finset (Fin n) :=
  ls.curr.filter (fun v => G.owner v = p)

/-- The decision of both entry points to call `ForceContinue`: the inner
range of `next_modified` is not empty. -/
def forceOf (G : WGraph n P) (p : Fin P) (ls : LState n) : Bool :=
  decide (∃ v ∈ ls.nextm, G.owner v = p)

/-- The message phase of `PropagateLabelPush`: every outer vertex present
in `next_modified` has its current label sent to its owner
(`SyncStateOnOuterVertex`). -/
def sendMsgs (G : WGraph n P) (p : Fin P) (ls : LState n) : List (Fin n × ℕ) :=
  (outerList G p).filterMap (fun v => if v ∈ ls.nextm then some (v, ls.comp v) else none)

/-- The assignment phase of `PEval`: every inner vertex gets its own gid as
label and is inserted into `curr_modified`; every outer vertex gets its own
gid as label. -/
def assignPhase (G : WGraph n P) (p : Fin P) (ls : LState n) : LState n :=
  let ls1 := (innerList G p).foldl
    (fun s v => { s with comp := Function.update s.comp v (G.gid v),
                         curr := insert v s.curr }) ls
  (outerList G p).foldl
    (fun s v => { s with comp := Function.update s.comp v (G.gid v) }) ls1

/-- A frontier schedule: for a partition and the inner frontier set, the
enumeration order the parallel loop happens to process. -/
def FSchedOk (fs : Fin P → Finset (Fin n) → List (Fin n)) : Prop :=
  ∀ p S v, v ∈ fs p S ↔ v ∈ S

/-- A delivery schedule: for a partition and the in-flight message list, the
order (and possible duplication) in which that partition's messages are
applied.  Every message owned by the partition is applied at least once and
nothing else is applied. -/
def DSchedOk (G : WGraph n P) (ds : Fin P → List (Fin n × ℕ) → List (Fin n × ℕ)) : Prop :=
  ∀ p ms m, m ∈ ds p ms ↔ (m ∈ ms ∧ G.owner m.1 = p)

/-- `WCC::IncEval` on one partition: clear `next_modified`, drain the
delivered messages into labels and `curr_modified`, run the push pass over
the inner frontier, then report `ForceContinue`, emit the outbound messages
and swap the frontier buffers. -/
def incEvalPart (G : WGraph n P) (p : Fin P)
    (fs : Fin P → Finset (Fin n) → List (Fin n))
    (D : List (Fin n × ℕ)) (ls : LState n) :
    LState n × Bool × List (Fin n × ℕ) :=
  let ls1 := drain D (clearNext ls)
  let ls2 := pushPass G (fs p (frontSet G p ls1)) ls1
  (swapLS ls2, forceOf G p ls2, sendMsgs G p ls2)

/-- `WCC::PEval` on one partition: assign initial labels, run the push pass
once over the full inner frontier, then report, emit and swap exactly as
`IncEval` does. -/
def pevalPart (G : WGraph n P) (p : Fin P)
    (fs : Fin P → Finset (Fin n) → List (Fin n))
    (ls : LState n) :
    LState n × Bool × List (Fin n × ℕ) :=
  let ls1 := assignPhase G p ls
  let ls2 := pushPass G (fs p (frontSet G p ls1)) ls1
  (swapLS ls2, forceOf G p ls2, sendMsgs G p ls2)

/-- Global state across partitions: the per-partition stores, the messages
in flight, and whether any partition reported pending work (a
`ForceContinue` call or an outbound message) in the superstep just run. -/
structure GState (n P : ℕ) where
  parts : Fin P → LState n
  msgs : List (Fin n × ℕ)
  pending : Bool

/-- The label store before `PEval`. -/
def initLS (G : WGraph n P) : LState n :=
  { comp := fun v => G.gid v, curr := ∅, nextm := ∅ }

/-- The initialization superstep: `PEval` on every partition. -/
def pevalAll (G : WGraph n P)
    (fs : Fin P → Finset (Fin n) → List (Fin n)) : GState n P :=
  let res := fun p => pevalPart G p fs (initLS G)
  let out := ((List.finRange P).map (fun p => (res p).2.2)).flatten
  { parts := fun p => (res p).1,
    msgs := out,
    pending := ((List.finRange P).any fun p => (res p).2.1) || !out.isEmpty }

/-- One incremental superstep: `IncEval` on every partition, each draining
its slice of the in-flight messages; the freshly sent messages become the
next superstep's inbox. -/
def stepAll (G : WGraph n P)
    (fs : Fin P → Finset (Fin n) → List (Fin n))
    (ds : Fin P → List (Fin n × ℕ) → List (Fin n × ℕ))
    (g : GState n P) : GState n P :=
  let res := fun p => incEvalPart G p fs (ds p g.msgs) (g.parts p)
  let out := ((List.finRange P).map (fun p => (res p).2.2)).flatten
  { parts := fun p => (res p).1,
    msgs := out,
    pending := ((List.finRange P).any fun p => (res p).2.1) || !out.isEmpty }

/-- The driver: `PEval` once, then `k` rounds of `IncEval`, under
per-superstep schedules. -/
def runGen (G : WGraph n P)
    (fs : ℕ → Fin P → Finset (Fin n) → List (Fin n))
    (ds : ℕ → Fin P → List (Fin n × ℕ) → List (Fin n × ℕ)) :
    ℕ → GState n P
  | 0 => pevalAll G (fs 0)
  | k + 1 => stepAll G (fs (k + 1)) (ds (k + 1)) (runGen G fs ds k)

/-- The canonical frontier schedule: the standard enumeration of the set. -/
def canonF : Fin P → Finset (Fin n) → List (Fin n) :=
  fun _ S => (List.finRange n).filter (fun v => decide (v ∈ S))

/-- The canonical delivery schedule: each partition applies exactly its own
slice of the in-flight messages, in list order. -/
def canonD (G : WGraph n P) : Fin P → List (Fin n × ℕ) → List (Fin n × ℕ) :=
  fun p ms => ms.filter (fun m => decide (G.owner m.1 = p))

/-- The canonical run of the algorithm. -/
def run (G : WGraph n P) (k : ℕ) : GState n P :=
  runGen G (fun _ => canonF) (fun _ => canonD G) k

/-- The graph is undirected: every edge appears in both adjacency lists. -/
def UndirectedG (G : WGraph n P) : Prop :=
  ∀ a b, b ∈ G.adj a → a ∈ G.adj b

/-- Reachability along (directed) adjacency. -/
def Reach (G : WGraph n P) (v w : Fin n) : Prop :=
  Relation.ReflTransGen (fun a b => b ∈ G.adj a) v w

/-- One round of closure: a set together with all outgoing neighbors of its
members. -/
def stepSet (G : WGraph n P) (S : Finset (Fin n)) : Finset (Fin n) :=
  S ∪ S.biUnion (fun a => (G.adj a).toFinset)

/-- The set of vertices reachable from `v`, computed as `n` rounds of
closure (enough to stabilize on `n` vertices). -/
def reachSet (G : WGraph n P) (v : Fin n) : Finset (Fin n) :=
  (stepSet G)^[n] {v}

theorem mem_stepSet {G : WGraph n P} {S : Finset (Fin n)} {b : Fin n} :
    b ∈ stepSet G S ↔ b ∈ S ∨ ∃ a ∈ S, b ∈ G.adj a := by
  simp [stepSet, List.mem_toFinset]

theorem subset_stepSet {G : WGraph n P} {S : Finset (Fin n)} : S ⊆ stepSet G S :=
  Finset.subset_union_left

theorem subset_iterate_stepSet (G : WGraph n P) (S : Finset (Fin n)) (k : ℕ) :
    S ⊆ (stepSet G)^[k] S := by
  induction k generalizing S with
  | zero => simp
  | succ k ih =>
    rw [Function.iterate_succ_apply]
    exact subset_stepSet.trans (ih _)

theorem mem_reachSet_self (G : WGraph n P) (v : Fin n) : v ∈ reachSet G v :=
  subset_iterate_stepSet G {v} n (Finset.mem_singleton_self v)

theorem reach_of_mem_iterate {G : WGraph n P} {v : Fin n} :
    ∀ (k : ℕ) (S : Finset (Fin n)), (∀ u ∈ S, Reach G v u) →
      ∀ w ∈ (stepSet G)^[k] S, Reach G v w := by
  intro k
  induction k with
  | zero => intro S hS w hw; exact hS w (by simpa using hw)
  | succ k ih =>
    intro S hS w hw
    rw [Function.iterate_succ_apply] at hw
    refine ih (stepSet G S) ?_ w hw
    intro u hu
    rcases mem_stepSet.1 hu with h | ⟨a, ha, hedge⟩
    · exact hS u h
    · exact Relation.ReflTransGen.tail (hS a ha) hedge

theorem iterate_stepSet_fix {G : WGraph n P} {S : Finset (Fin n)} (k : ℕ)
    (h : stepSet G S = S) : (stepSet G)^[k] S = S := by
  induction k with
  | zero => rfl
  | succ k ih => rw [Function.iterate_succ_apply, h, ih]

theorem stepSet_growth (G : WGraph n P) (S : Finset (Fin n)) (k : ℕ) :
    (stepSet G)^[k + 1] S = (stepSet G)^[k] S ∨
      k + S.card ≤ ((stepSet G)^[k] S).card := by
  induction k with
  | zero => right; simp
  | succ k ih =>
    rcases ih with h | h
    · left
      rw [Function.iterate_succ_apply'] at h
      rw [Function.iterate_succ_apply', Function.iterate_succ_apply', h]
      exact h
    · by_cases hfix : stepSet G ((stepSet G)^[k] S) = (stepSet G)^[k] S
      · left
        rw [Function.iterate_succ_apply', Function.iterate_succ_apply', hfix]
        exact hfix
      · right
        have hss : (stepSet G)^[k] S ⊂ stepSet G ((stepSet G)^[k] S) :=
          HasSubset.Subset.ssubset_of_ne subset_stepSet (fun he => hfix he.symm)
        have := Finset.card_lt_card hss
        rw [Function.iterate_succ_apply']
        omega

theorem stepSet_reachSet (G : WGraph n P) (v : Fin n) :
    stepSet G (reachSet G v) = reachSet G v := by
  rcases stepSet_growth G {v} n with h | h
  · have : (stepSet G)^[n + 1] {v} = stepSet G ((stepSet G)^[n] {v}) :=
      Function.iterate_succ_apply' _ _ _
    rw [reachSet, ← this, h]
  · exfalso
    have hle : ((stepSet G)^[n] ({v} : Finset (Fin n))).card ≤ n := by
      have := Finset.card_le_univ ((stepSet G)^[n] ({v} : Finset (Fin n)))
      simpa using this
    simp [Finset.card_singleton] at h
    omega

theorem mem_reachSet_iff {G : WGraph n P} {v w : Fin n} :
    w ∈ reachSet G v ↔ Reach G v w := by
  constructor
  · intro hw
    refine reach_of_mem_iterate n {v} ?_ w hw
    intro u hu
    rw [Finset.mem_singleton] at hu
    exact hu ▸ Relation.ReflTransGen.refl
  · intro h
    induction h with
    | refl => exact mem_reachSet_self G v
    | tail _ hedge ih =>
      have : _ ∈ stepSet G (reachSet G v) := mem_stepSet.2 (Or.inr ⟨_, ih, hedge⟩)
      rwa [stepSet_reachSet] at this

theorem reachSet_nonempty (G : WGraph n P) (v : Fin n) : (reachSet G v).Nonempty :=
  ⟨v, mem_reachSet_self G v⟩

/-- The minimum global identifier among the vertices reachable from `v`. -/
def minReachGid (G : WGraph n P) (v : Fin n) : ℕ :=
  ((reachSet G v).image G.gid).min' ((reachSet_nonempty G v).image G.gid)

theorem minReachGid_le {G : WGraph n P} {v w : Fin n} (h : Reach G v w) :
    minReachGid G v ≤ G.gid w :=
  Finset.min'_le _ _ (Finset.mem_image_of_mem G.gid (mem_reachSet_iff.2 h))

theorem exists_minReachGid (G : WGraph n P) (v : Fin n) :
    ∃ w, Reach G v w ∧ G.gid w = minReachGid G v := by
  have := Finset.min'_mem ((reachSet G v).image G.gid)
    ((reachSet_nonempty G v).image G.gid)
  rcases Finset.mem_image.1 this with ⟨w, hw, he⟩
  exact ⟨w, mem_reachSet_iff.1 hw, he⟩

theorem minReachGid_le_minReachGid {G : WGraph n P} {v u : Fin n}
    (h : ∀ w, Reach G u w → Reach G v w) : minReachGid G v ≤ minReachGid G u := by
  rcases exists_minReachGid G u with ⟨w, hw, he⟩
  exact he ▸ minReachGid_le (h w hw)

instance (G : WGraph n P) : Decidable (UndirectedG G) := by
  unfold UndirectedG; infer_instance

/-! ### Characterization of the push loop -/

/-- The inner loop of `PropagateLabelPush` over an arbitrary neighbor list,
with the pushed label fixed. -/
def pushList (cid : ℕ) (ls : LState n) (us : List (Fin n)) : LState n :=
  us.foldl (pushOne cid) ls

theorem pushVertex_eq_pushList (G : WGraph n P) (ls : LState n) (v : Fin n) :
    pushVertex G ls v = pushList (ls.comp v) ls (G.adj v) := rfl

theorem pushOne_comp (cid : ℕ) (ls : LState n) (u x : Fin n) :
    (pushOne cid ls u).comp x =
      if x = u ∧ cid < ls.comp u then cid else ls.comp x := by
  unfold pushOne atomic_min
  by_cases h : cid < ls.comp u
  · simp only [if_pos h, Function.update_apply]
    by_cases hx : x = u
    · subst hx; simp [h, min_eq_right h.le]
    · simp [hx, h]
  · simp [h]

theorem pushOne_curr (cid : ℕ) (ls : LState n) (u : Fin n) :
    (pushOne cid ls u).curr = ls.curr := by
  unfold pushOne; split <;> rfl

theorem pushOne_nextm_mem (cid : ℕ) (ls : LState n) (u x : Fin n) :
    x ∈ (pushOne cid ls u).nextm ↔
      x ∈ ls.nextm ∨ (x = u ∧ cid < ls.comp u) := by
  unfold pushOne
  by_cases h : cid < ls.comp u
  · simp [h, Finset.mem_insert, or_comm]
  · simp [h]

theorem pushList_comp_ge (cid : ℕ) (us : List (Fin n)) :
    ∀ (ls : LState n) (x : Fin n), ls.comp x ≤ cid →
      (pushList cid ls us).comp x = ls.comp x := by
  induction us with
  | nil => intro ls x _; rfl
  | cons u rest ih =>
    intro ls x hx
    show (pushList cid (pushOne cid ls u) rest).comp x = ls.comp x
    have h1 : (pushOne cid ls u).comp x = ls.comp x := by
      rw [pushOne_comp]
      rcases Decidable.em (x = u ∧ cid < ls.comp u) with h | h
      · exact absurd (h.1 ▸ hx) (not_le.2 h.2)
      · rw [if_neg h]
    rw [ih (pushOne cid ls u) x (h1 ▸ hx), h1]

theorem pushList_comp_notmem (cid : ℕ) (us : List (Fin n)) :
    ∀ (ls : LState n) (x : Fin n), x ∉ us →
      (pushList cid ls us).comp x = ls.comp x := by
  induction us with
  | nil => intro ls x _; rfl
  | cons u rest ih =>
    intro ls x hx
    have hxu : x ≠ u := fun h => hx (h ▸ List.mem_cons_self u rest)
    have hxr : x ∉ rest := fun h => hx (List.mem_cons_of_mem u h)
    show (pushList cid (pushOne cid ls u) rest).comp x = ls.comp x
    rw [ih _ x hxr, pushOne_comp, if_neg (fun h => hxu h.1)]

theorem pushList_comp_mem (cid : ℕ) (us : List (Fin n)) :
    ∀ (ls : LState n) (x : Fin n), x ∈ us → cid < ls.comp x →
      (pushList cid ls us).comp x = cid := by
  induction us with
  | nil => intro ls x hx; exact absurd hx (List.not_mem_nil x)
  | cons u rest ih =>
    intro ls x hx hlt
    show (pushList cid (pushOne cid ls u) rest).comp x = cid
    by_cases hxu : x = u
    · subst hxu
      have h1 : (pushOne cid ls x).comp x = cid := by
        rw [pushOne_comp, if_pos ⟨rfl, hlt⟩]
      exact pushList_comp_ge cid rest _ x (le_of_eq h1) |>.trans h1
    · have hxr : x ∈ rest := (List.mem_cons.1 hx).resolve_left hxu
      have h1 : (pushOne cid ls u).comp x = ls.comp x := by
        rw [pushOne_comp, if_neg (fun h => hxu h.1)]
      exact ih _ x hxr (h1 ▸ hlt)

theorem pushList_comp (cid : ℕ) (ls : LState n) (us : List (Fin n)) (x : Fin n) :
    (pushList cid ls us).comp x =
      if x ∈ us ∧ cid < ls.comp x then cid else ls.comp x := by
  rcases Decidable.em (x ∈ us ∧ cid < ls.comp x) with h | h
  · rw [if_pos h, pushList_comp_mem cid us ls x h.1 h.2]
  · rw [if_neg h]
    rcases Decidable.em (x ∈ us) with hm | hm
    · have : ¬ cid < ls.comp x := fun hlt => h ⟨hm, hlt⟩
      exact pushList_comp_ge cid us ls x (not_lt.1 this)
    · exact pushList_comp_notmem cid us ls x hm

theorem pushList_curr (cid : ℕ) (us : List (Fin n)) :
    ∀ ls : LState n, (pushList cid ls us).curr = ls.curr := by
  induction us with
  | nil => intro ls; rfl
  | cons u rest ih =>
    intro ls
    show (pushList cid (pushOne cid ls u) rest).curr = ls.curr
    rw [ih, pushOne_curr]

theorem pushList_nextm_mem (cid : ℕ) (us : List (Fin n)) :
    ∀ (ls : LState n) (x : Fin n),
      x ∈ (pushList cid ls us).nextm ↔
        x ∈ ls.nextm ∨ (x ∈ us ∧ cid < ls.comp x) := by
  induction us with
  | nil => intro ls x; simp [pushList]
  | cons u rest ih =>
    intro ls x
    show x ∈ (pushList cid (pushOne cid ls u) rest).nextm ↔ _
    rw [ih, pushOne_nextm_mem, pushOne_comp]
    by_cases hxu : x = u
    · subst hxu
      by_cases hlt : cid < ls.comp x
      · simp [hlt]
      · simp [hlt, List.mem_cons]
    · simp only [if_neg (fun h => hxu (And.left h)), List.mem_cons]
      constructor
      · rintro ((h | h) | h)
        · exact Or.inl h
        · exact absurd h.1 hxu
        · exact Or.inr ⟨Or.inr h.1, h.2⟩
      · rintro (h | ⟨(h1 | h1), h2⟩)
        · exact Or.inl (Or.inl h)
        · exact absurd h1 hxu
        · exact Or.inr ⟨h1, h2⟩

/-! ### Evolution relations: what any sequence of relaxations preserves -/

/-- What a push phase can do to the store: labels only go down, any label
change marks the vertex in `next_modified`, `next_modified` only grows and
`curr_modified` is untouched. -/
def Evol (s t : LState n) : Prop :=
  (∀ x, t.comp x ≤ s.comp x) ∧ s.nextm ⊆ t.nextm ∧
    (∀ x, t.comp x = s.comp x ∨ x ∈ t.nextm) ∧ t.curr = s.curr

theorem evol_refl (s : LState n) : Evol s s :=
  ⟨fun _ => le_refl _, subset_rfl, fun _ => Or.inl rfl, rfl⟩

theorem evol_trans {s t u : LState n} (h1 : Evol s t) (h2 : Evol t u) : Evol s u := by
  obtain ⟨m1, n1, c1, r1⟩ := h1
  obtain ⟨m2, n2, c2, r2⟩ := h2
  refine ⟨fun x => (m2 x).trans (m1 x), n1.trans n2, fun x => ?_, r2.trans r1⟩
  rcases c2 x with h | h
  · rcases c1 x with h' | h'
    · exact Or.inl (h.trans h')
    · exact Or.inr (n2 h')
  · exact Or.inr h

theorem evol_pushOne (cid : ℕ) (ls : LState n) (u : Fin n) :
    Evol ls (pushOne cid ls u) := by
  unfold pushOne
  by_cases h : cid < ls.comp u
  · rw [if_pos h]
    refine ⟨fun x => ?_, Finset.subset_insert u ls.nextm, fun x => ?_, rfl⟩
    · by_cases hx : x = u
      · subst hx; simp [Function.update_same, atomic_min]
      · simp [Function.update_noteq hx]
    · by_cases hx : x = u
      · subst hx; exact Or.inr (Finset.mem_insert_self x ls.nextm)
      · exact Or.inl (by simp [Function.update_noteq hx])
  · rw [if_neg h]; exact evol_refl ls

theorem evol_foldl {α : Type} (f : LState n → α → LState n)
    (hf : ∀ s a, Evol s (f s a)) (l : List α) :
    ∀ s : LState n, Evol s (l.foldl f s) := by
  induction l with
  | nil => intro s; exact evol_refl s
  | cons a rest ih =>
    intro s
    exact evol_trans (hf s a) (ih (f s a))

theorem evol_pushVertex (G : WGraph n P) (ls : LState n) (v : Fin n) :
    Evol ls (pushVertex G ls v) :=
  evol_foldl (pushOne (ls.comp v)) (evol_pushOne (ls.comp v)) (G.adj v) ls

theorem evol_pushPass (G : WGraph n P) (L : List (Fin n)) (ls : LState n) :
    Evol ls (pushPass G L ls) :=
  evol_foldl (pushVertex G) (evol_pushVertex G) L ls

/-- What the message-drain phase can do: labels only go down, any label
change marks the vertex in `curr_modified`, `curr_modified` only grows and
`next_modified` is untouched. -/
def EvolD (s t : LState n) : Prop :=
  (∀ x, t.comp x ≤ s.comp x) ∧ s.curr ⊆ t.curr ∧
    (∀ x, t.comp x = s.comp x ∨ x ∈ t.curr) ∧ t.nextm = s.nextm

theorem evolD_refl (s : LState n) : EvolD s s :=
  ⟨fun _ => le_refl _, subset_rfl, fun _ => Or.inl rfl, rfl⟩

theorem evolD_trans {s t u : LState n} (h1 : EvolD s t) (h2 : EvolD t u) : EvolD s u := by
  obtain ⟨m1, n1, c1, r1⟩ := h1
  obtain ⟨m2, n2, c2, r2⟩ := h2
  refine ⟨fun x => (m2 x).trans (m1 x), n1.trans n2, fun x => ?_, r2.trans r1⟩
  rcases c2 x with h | h
  · rcases c1 x with h' | h'
    · exact Or.inl (h.trans h')
    · exact Or.inr (n2 h')
  · exact Or.inr h

theorem evolD_drainStep (ls : LState n) (m : Fin n × ℕ) :
    EvolD ls (drainStep ls m) := by
  unfold drainStep
  by_cases h : m.2 < ls.comp m.1
  · rw [if_pos h]
    refine ⟨fun x => ?_, Finset.subset_insert m.1 ls.curr, fun x => ?_, rfl⟩
    · by_cases hx : x = m.1
      · subst hx; simp [Function.update_same, atomic_min]
      · simp [Function.update_noteq hx]
    · by_cases hx : x = m.1
      · subst hx; exact Or.inr (Finset.mem_insert_self m.1 ls.curr)
      · exact Or.inl (by simp [Function.update_noteq hx])
  · rw [if_neg h]; exact evolD_refl ls

theorem evolD_drain (D : List (Fin n × ℕ)) :
    ∀ ls : LState n, EvolD ls (drain D ls) := by
  induction D with
  | nil => intro ls; exact evolD_refl ls
  | cons m rest ih =>
    intro ls
    exact evolD_trans (evolD_drainStep ls m) (ih (drainStep ls m))

theorem drainStep_comp (ls : LState n) (m : Fin n × ℕ) (x : Fin n) :
    (drainStep ls m).comp x =
      if x = m.1 ∧ m.2 < ls.comp m.1 then atomic_min (ls.comp m.1) m.2
      else ls.comp x := by
  unfold drainStep
  by_cases h : m.2 < ls.comp m.1
  · rw [if_pos h]
    by_cases hx : x = m.1
    · subst hx; simp [h, Function.update_same]
    · simp [hx, Function.update_noteq hx]
  · simp [h]

theorem drainStep_curr_mem (ls : LState n) (m : Fin n × ℕ) (x : Fin n) :
    x ∈ (drainStep ls m).curr ↔
      x ∈ ls.curr ∨ (x = m.1 ∧ m.2 < ls.comp m.1) := by
  unfold drainStep
  by_cases h : m.2 < ls.comp m.1
  · simp [h, Finset.mem_insert, or_comm]
  · simp [h]

theorem drain_comp_untouched (D : List (Fin n × ℕ)) :
    ∀ (ls : LState n) (x : Fin n), (∀ m ∈ D, m.1 ≠ x) →
      (drain D ls).comp x = ls.comp x := by
  induction D with
  | nil => intro ls x _; rfl
  | cons m rest ih =>
    intro ls x hD
    show (drain rest (drainStep ls m)).comp x = ls.comp x
    rw [ih _ x (fun m' hm' => hD m' (List.mem_cons_of_mem m hm')),
      drainStep_comp,
      if_neg (fun h => hD m (List.mem_cons_self m rest) h.1.symm)]

theorem drain_le_payload (D : List (Fin n × ℕ)) :
    ∀ (ls : LState n) (u : Fin n) (c : ℕ), (u, c) ∈ D →
      (drain D ls).comp u ≤ c := by
  induction D with
  | nil => intro ls u c h; exact absurd h (List.not_mem_nil _)
  | cons m rest ih =>
    intro ls u c hm
    rcases List.mem_cons.1 hm with h | h
    · subst h
      have h1 : (drainStep ls (u, c)).comp u ≤ c := by
        rw [drainStep_comp]
        by_cases hlt : c < ls.comp u
        · rw [if_pos ⟨rfl, hlt⟩]
          exact min_le_right _ _
        · rw [if_neg (fun hc => hlt hc.2)]
          exact not_lt.1 hlt
      exact le_trans ((evolD_drain rest (drainStep ls (u, c))).1 u) h1
    · exact ih _ u c h

/-! ### Characterization of the `PEval` assignment phase -/

theorem assign_fold_comp (G : WGraph n P) (l : List (Fin n)) :
    ∀ (ls : LState n) (x : Fin n),
      (l.foldl (fun s v => { s with comp := Function.update s.comp v (G.gid v),
                                    curr := insert v s.curr }) ls).comp x =
        if x ∈ l then G.gid x else ls.comp x := by
  induction l with
  | nil => intro ls x; simp
  | cons v rest ih =>
    intro ls x
    rw [List.foldl_cons, ih]
    by_cases hx : x ∈ rest
    · simp [hx, List.mem_cons]
    · by_cases hxv : x = v
      · subst hxv; simp [hx, Function.update_same]
      · simp [hx, hxv, Function.update_noteq hxv]

theorem assign_fold_curr (G : WGraph n P) (l : List (Fin n)) :
    ∀ (ls : LState n) (x : Fin n),
      x ∈ (l.foldl (fun s v => { s with comp := Function.update s.comp v (G.gid v),
                                        curr := insert v s.curr }) ls).curr ↔
        x ∈ ls.curr ∨ x ∈ l := by
  induction l with
  | nil => intro ls x; simp
  | cons v rest ih =>
    intro ls x
    rw [List.foldl_cons, ih]
    simp [Finset.mem_insert, List.mem_cons]
    tauto

theorem assign_fold_nextm (G : WGraph n P) (l : List (Fin n)) :
    ∀ ls : LState n,
      (l.foldl (fun s v => { s with comp := Function.update s.comp v (G.gid v),
                                    curr := insert v s.curr }) ls).nextm = ls.nextm := by
  induction l with
  | nil => intro ls; rfl
  | cons v rest ih => intro ls; rw [List.foldl_cons, ih]

theorem outer_fold_comp (G : WGraph n P) (l : List (Fin n)) :
    ∀ (ls : LState n) (x : Fin n),
      (l.foldl (fun s v => { s with comp := Function.update s.comp v (G.gid v) }) ls).comp x =
        if x ∈ l then G.gid x else ls.comp x := by
  induction l with
  | nil => intro ls x; simp
  | cons v rest ih =>
    intro ls x
    rw [List.foldl_cons, ih]
    by_cases hx : x ∈ rest
    · simp [hx, List.mem_cons]
    · by_cases hxv : x = v
      · subst hxv; simp [hx, Function.update_same]
      · simp [hx, hxv, Function.update_noteq hxv]

theorem outer_fold_curr_nextm (G : WGraph n P) (l : List (Fin n)) :
    ∀ ls : LState n,
      (l.foldl (fun s v => { s with comp := Function.update s.comp v (G.gid v) }) ls).curr
          = ls.curr ∧
        (l.foldl (fun s v => { s with comp := Function.update s.comp v (G.gid v) }) ls).nextm
          = ls.nextm := by
  induction l with
  | nil => intro ls; exact ⟨rfl, rfl⟩
  | cons v rest ih => intro ls; rw [List.foldl_cons]; exact ih _

theorem mem_innerList (G : WGraph n P) (p : Fin P) (x : Fin n) :
    x ∈ innerList G p ↔ G.owner x = p := by
  simp [innerList, List.mem_filter, List.mem_finRange]

theorem mem_outerList (G : WGraph n P) (p : Fin P) (x : Fin n) :
    x ∈ outerList G p ↔ isOuter G p x := by
  simp [outerList, List.mem_filter, List.mem_finRange]

theorem assignPhase_comp (G : WGraph n P) (p : Fin P) (ls : LState n) (x : Fin n) :
    (assignPhase G p ls).comp x =
      if G.owner x = p ∨ isOuter G p x then G.gid x else ls.comp x := by
  unfold assignPhase
  rw [outer_fold_comp, assign_fold_comp]
  by_cases h1 : isOuter G p x
  · simp [mem_outerList, h1]
  · by_cases h2 : G.owner x = p <;>
      simp [mem_outerList, mem_innerList, h1, h2]

theorem assignPhase_curr_mem (G : WGraph n P) (p : Fin P) (ls : LState n) (x : Fin n) :
    x ∈ (assignPhase G p ls).curr ↔ x ∈ ls.curr ∨ G.owner x = p := by
  unfold assignPhase
  rw [(outer_fold_curr_nextm G _ _).1, assign_fold_curr, mem_innerList]

theorem assignPhase_nextm (G : WGraph n P) (p : Fin P) (ls : LState n) :
    (assignPhase G p ls).nextm = ls.nextm := by
  unfold assignPhase
  rw [(outer_fold_curr_nextm G _ _).2, assign_fold_nextm]

/-! ### Relaxedness and label validity -/

/-- All outgoing neighbors of `v` already carry a label no larger than
`v`'s: `v` has nothing left to push. -/
def relaxedAt (G : WGraph n P) (c : Fin n → ℕ) (v : Fin n) : Prop :=
  ∀ u ∈ G.adj v, c u ≤ c v

/-- Every stored label is the gid of some vertex reachable from the slot's
vertex. -/
def ValidMap (G : WGraph n P) (c : Fin n → ℕ) : Prop :=
  ∀ x, ∃ w, Reach G x w ∧ c x = G.gid w

theorem relaxed_evol {G : WGraph n P} {s t : LState n} (h : Evol s t) {v : Fin n}
    (hv : relaxedAt G s.comp v ∨ v ∈ s.nextm) :
    relaxedAt G t.comp v ∨ v ∈ t.nextm := by
  rcases hv with hv | hv
  · rcases h.2.2.1 v with he | he
    · left
      intro u hu
      exact le_trans (h.1 u) (he ▸ hv u hu)
    · exact Or.inr he
  · exact Or.inr (h.2.1 hv)

theorem relaxed_evolD {G : WGraph n P} {s t : LState n} (h : EvolD s t) {v : Fin n}
    (hv : relaxedAt G s.comp v ∨ v ∈ s.curr) :
    relaxedAt G t.comp v ∨ v ∈ t.curr := by
  rcases hv with hv | hv
  · rcases h.2.2.1 v with he | he
    · left
      intro u hu
      exact le_trans (h.1 u) (he ▸ hv u hu)
    · exact Or.inr he
  · exact Or.inr (h.2.1 hv)

theorem pushVertex_comp (G : WGraph n P) (ls : LState n) (v x : Fin n) :
    (pushVertex G ls v).comp x =
      if x ∈ G.adj v ∧ ls.comp v < ls.comp x then ls.comp v else ls.comp x := by
  rw [pushVertex_eq_pushList, pushList_comp]

theorem pushVertex_nextm_mem (G : WGraph n P) (ls : LState n) (v x : Fin n) :
    x ∈ (pushVertex G ls v).nextm ↔
      x ∈ ls.nextm ∨ (x ∈ G.adj v ∧ ls.comp v < ls.comp x) := by
  rw [pushVertex_eq_pushList, pushList_nextm_mem]

theorem pushVertex_relaxes (G : WGraph n P) (ls : LState n) (v : Fin n) :
    relaxedAt G (pushVertex G ls v).comp v := by
  intro u hu
  rw [pushVertex_comp, pushVertex_comp]
  have hv : ¬ (v ∈ G.adj v ∧ ls.comp v < ls.comp v) := fun h => lt_irrefl _ h.2
  rw [if_neg hv]
  by_cases h : u ∈ G.adj v ∧ ls.comp v < ls.comp u
  · rw [if_pos h]
  · rw [if_neg h]
    exact not_lt.1 (fun hlt => h ⟨hu, hlt⟩)

theorem pushPass_cons (G : WGraph n P) (u : Fin n) (rest : List (Fin n)) (ls : LState n) :
    pushPass G (u :: rest) ls = pushPass G rest (pushVertex G ls u) := rfl

theorem pushPass_processed (G : WGraph n P) (L : List (Fin n)) :
    ∀ (ls : LState n) (v : Fin n), v ∈ L →
      relaxedAt G (pushPass G L ls).comp v ∨ v ∈ (pushPass G L ls).nextm := by
  induction L with
  | nil => intro ls v hv; exact absurd hv (List.not_mem_nil v)
  | cons u rest ih =>
    intro ls v hv
    rw [pushPass_cons]
    by_cases hvu : v = u
    · subst hvu
      exact relaxed_evol (evol_pushPass G rest (pushVertex G ls v))
        (Or.inl (pushVertex_relaxes G ls v))
    · exact ih _ v ((List.mem_cons.1 hv).resolve_left hvu)

theorem validMap_pushVertex {G : WGraph n P} (hU : UndirectedG G) {ls : LState n}
    (h : ValidMap G ls.comp) (v : Fin n) :
    ValidMap G (pushVertex G ls v).comp := by
  intro x
  rw [pushVertex_comp]
  by_cases hx : x ∈ G.adj v ∧ ls.comp v < ls.comp x
  · rw [if_pos hx]
    rcases h v with ⟨w, hw, he⟩
    exact ⟨w, Relation.ReflTransGen.head (hU v x hx.1) hw, he⟩
  · rw [if_neg hx]
    exact h x

theorem validMap_pushPass {G : WGraph n P} (hU : UndirectedG G) (L : List (Fin n)) :
    ∀ ls : LState n, ValidMap G ls.comp → ValidMap G (pushPass G L ls).comp := by
  induction L with
  | nil => intro ls h; exact h
  | cons u rest ih =>
    intro ls h
    rw [pushPass_cons]
    exact ih _ (validMap_pushVertex hU h u)

theorem validMap_drain {G : WGraph n P} (D : List (Fin n × ℕ)) :
    ∀ ls : LState n, ValidMap G ls.comp →
      (∀ m ∈ D, ∃ w, Reach G m.1 w ∧ m.2 = G.gid w) →
      ValidMap G (drain D ls).comp := by
  induction D with
  | nil => intro ls h _; exact h
  | cons m rest ih =>
    intro ls h hD
    show ValidMap G (drain rest (drainStep ls m)).comp
    refine ih _ ?_ (fun m' hm' => hD m' (List.mem_cons_of_mem m hm'))
    intro x
    rw [drainStep_comp]
    by_cases hx : x = m.1 ∧ m.2 < ls.comp m.1
    · rw [if_pos hx]
      rcases hD m (List.mem_cons_self m rest) with ⟨w, hw, he⟩
      refine ⟨w, hx.1 ▸ hw, ?_⟩
      rw [atomic_min, min_eq_right hx.2.le, he]
    · rw [if_neg hx]
      exact h x

theorem mem_sendMsgs (G : WGraph n P) (p : Fin P) (ls : LState n) (m : Fin n × ℕ) :
    m ∈ sendMsgs G p ls ↔
      isOuter G p m.1 ∧ m.1 ∈ ls.nextm ∧ m.2 = ls.comp m.1 := by
  unfold sendMsgs
  rw [List.mem_filterMap]
  constructor
  · rintro ⟨a, ha, hfa⟩
    by_cases hmem : a ∈ ls.nextm
    · rw [if_pos hmem] at hfa
      have hm : m = (a, ls.comp a) := (Option.some_inj.1 hfa).symm
      subst hm
      exact ⟨(mem_outerList G p a).1 ha, hmem, rfl⟩
    · rw [if_neg hmem] at hfa
      exact absurd hfa (Option.noConfusion)
  · rintro ⟨ho, hmem, hval⟩
    refine ⟨m.1, (mem_outerList G p m.1).2 ho, ?_⟩
    rw [if_pos hmem]
    exact congrArg some (Prod.ext rfl hval.symm)

theorem mem_frontSet (G : WGraph n P) (p : Fin P) (ls : LState n) (v : Fin n) :
    v ∈ frontSet G p ls ↔ v ∈ ls.curr ∧ G.owner v = p := by
  simp [frontSet, Finset.mem_filter]

/-! ### Intermediate states of the two entry points -/

/-- The partition state of `IncEval` after clearing `next_modified` and
draining the delivered messages. -/
def incMid (D : List (Fin n × ℕ)) (ls : LState n) : LState n :=
  drain D (clearNext ls)

/-- The partition state of `IncEval` after the propagation pass. -/
def incPassed (G : WGraph n P) (p : Fin P)
    (fs : Fin P → Finset (Fin n) → List (Fin n))
    (D : List (Fin n × ℕ)) (ls : LState n) : LState n :=
  pushPass G (fs p (frontSet G p (incMid D ls))) (incMid D ls)

theorem incEvalPart_eq (G : WGraph n P) (p : Fin P)
    (fs : Fin P → Finset (Fin n) → List (Fin n))
    (D : List (Fin n × ℕ)) (ls : LState n) :
    incEvalPart G p fs D ls =
      (swapLS (incPassed G p fs D ls), forceOf G p (incPassed G p fs D ls),
        sendMsgs G p (incPassed G p fs D ls)) := rfl

/-- The partition state of `PEval` after the propagation pass. -/
def pevPassed (G : WGraph n P) (p : Fin P)
    (fs : Fin P → Finset (Fin n) → List (Fin n)) (ls : LState n) : LState n :=
  pushPass G (fs p (frontSet G p (assignPhase G p ls))) (assignPhase G p ls)

theorem pevalPart_eq (G : WGraph n P) (p : Fin P)
    (fs : Fin P → Finset (Fin n) → List (Fin n)) (ls : LState n) :
    pevalPart G p fs ls =
      (swapLS (pevPassed G p fs ls), forceOf G p (pevPassed G p fs ls),
        sendMsgs G p (pevPassed G p fs ls)) := rfl

theorem swapLS_comp (ls : LState n) : (swapLS ls).comp = ls.comp := rfl

theorem swapLS_curr (ls : LState n) : (swapLS ls).curr = ls.nextm := rfl

theorem swapLS_nextm (ls : LState n) : (swapLS ls).nextm = ls.curr := rfl

/-! ### Per-partition superstep facts -/

theorem inc_comp_mono (G : WGraph n P) (p : Fin P)
    (fs : Fin P → Finset (Fin n) → List (Fin n))
    (D : List (Fin n × ℕ)) (ls : LState n) (x : Fin n) :
    (incPassed G p fs D ls).comp x ≤ ls.comp x :=
  le_trans ((evol_pushPass G _ (incMid D ls)).1 x)
    ((evolD_drain D (clearNext ls)).1 x)

theorem inc_validMap {G : WGraph n P} (hU : UndirectedG G) (p : Fin P)
    (fs : Fin P → Finset (Fin n) → List (Fin n))
    {D : List (Fin n × ℕ)} {ls : LState n}
    (hv : ValidMap G ls.comp)
    (hD : ∀ m ∈ D, ∃ w, Reach G m.1 w ∧ m.2 = G.gid w) :
    ValidMap G (incPassed G p fs D ls).comp :=
  validMap_pushPass hU _ (incMid D ls) (validMap_drain D (clearNext ls) hv hD)

theorem inc_relaxed {G : WGraph n P} {p : Fin P}
    {fs : Fin P → Finset (Fin n) → List (Fin n)} (hfs : FSchedOk fs)
    (D : List (Fin n × ℕ)) (ls : LState n)
    (hpre : ∀ v, G.owner v = p → relaxedAt G ls.comp v ∨ v ∈ ls.curr) :
    ∀ v, G.owner v = p →
      relaxedAt G (incPassed G p fs D ls).comp v ∨ v ∈ (incPassed G p fs D ls).nextm := by
  intro v hv
  have h1 : relaxedAt G (incMid D ls).comp v ∨ v ∈ (incMid D ls).curr :=
    relaxed_evolD (evolD_drain D (clearNext ls)) (hpre v hv)
  rcases h1 with h1 | h1
  · exact relaxed_evol (evol_pushPass G _ (incMid D ls)) (Or.inl h1)
  · have hf : v ∈ fs p (frontSet G p (incMid D ls)) :=
      (hfs p _ v).2 ((mem_frontSet G p _ v).2 ⟨h1, hv⟩)
    exact pushPass_processed G _ (incMid D ls) v hf

theorem inc_comp_unchanged {G : WGraph n P} {p : Fin P}
    {fs : Fin P → Finset (Fin n) → List (Fin n)}
    {D : List (Fin n × ℕ)} {ls : LState n} {u : Fin n}
    (hD : ∀ m ∈ D, m.1 ≠ u) (hnm : u ∉ (incPassed G p fs D ls).nextm) :
    (incPassed G p fs D ls).comp u = ls.comp u := by
  have h1 : (incMid D ls).comp u = ls.comp u := drain_comp_untouched D (clearNext ls) u hD
  rcases (evol_pushPass G (fs p (frontSet G p (incMid D ls))) (incMid D ls)).2.2.1 u
    with h2 | h2
  · exact h2.trans h1
  · exact absurd h2 hnm

theorem inc_drain_le (G : WGraph n P) (p : Fin P)
    (fs : Fin P → Finset (Fin n) → List (Fin n))
    (D : List (Fin n × ℕ)) (ls : LState n) {u : Fin n} {c : ℕ}
    (hm : (u, c) ∈ D) :
    (incPassed G p fs D ls).comp u ≤ c :=
  le_trans ((evol_pushPass G _ (incMid D ls)).1 u)
    (drain_le_payload D (clearNext ls) u c hm)

theorem pev_assign_comp (G : WGraph n P) (p : Fin P) (x : Fin n) :
    (assignPhase G p (initLS G)).comp x = G.gid x := by
  rw [assignPhase_comp]
  by_cases h : G.owner x = p ∨ isOuter G p x
  · rw [if_pos h]
  · rw [if_neg h]; rfl

theorem pev_comp_le_gid (G : WGraph n P) (p : Fin P)
    (fs : Fin P → Finset (Fin n) → List (Fin n)) (x : Fin n) :
    (pevPassed G p fs (initLS G)).comp x ≤ G.gid x :=
  le_trans ((evol_pushPass G _ (assignPhase G p (initLS G))).1 x)
    (le_of_eq (pev_assign_comp G p x))

theorem pev_validMap {G : WGraph n P} (hU : UndirectedG G) (p : Fin P)
    (fs : Fin P → Finset (Fin n) → List (Fin n)) :
    ValidMap G (pevPassed G p fs (initLS G)).comp := by
  refine validMap_pushPass hU _ (assignPhase G p (initLS G)) ?_
  intro x
  exact ⟨x, Relation.ReflTransGen.refl, pev_assign_comp G p x⟩

theorem pev_relaxed {G : WGraph n P} {p : Fin P}
    {fs : Fin P → Finset (Fin n) → List (Fin n)} (hfs : FSchedOk fs) :
    ∀ v, G.owner v = p →
      relaxedAt G (pevPassed G p fs (initLS G)).comp v ∨
        v ∈ (pevPassed G p fs (initLS G)).nextm := by
  intro v hv
  have h1 : v ∈ (assignPhase G p (initLS G)).curr :=
    (assignPhase_curr_mem G p _ v).2 (Or.inr hv)
  have hf : v ∈ fs p (frontSet G p (assignPhase G p (initLS G))) :=
    (hfs p _ v).2 ((mem_frontSet G p _ v).2 ⟨h1, hv⟩)
  exact pushPass_processed G _ (assignPhase G p (initLS G)) v hf

theorem pev_comp_unchanged {G : WGraph n P} {p : Fin P}
    {fs : Fin P → Finset (Fin n) → List (Fin n)} {u : Fin n}
    (hnm : u ∉ (pevPassed G p fs (initLS G)).nextm) :
    (pevPassed G p fs (initLS G)).comp u = G.gid u := by
  rcases (evol_pushPass G (fs p (frontSet G p (assignPhase G p (initLS G))))
    (assignPhase G p (initLS G))).2.2.1 u with h2 | h2
  · exact h2.trans (pev_assign_comp G p u)
  · exact absurd h2 hnm

/-! ### Global invariants -/

/-- Every stored label of every partition is a reachable gid. -/
def InvV (G : WGraph n P) (g : GState n P) : Prop :=
  ∀ p, ValidMap G (g.parts p).comp

/-- Every in-flight message payload is a gid reachable from its target. -/
def InvVm (G : WGraph n P) (g : GState n P) : Prop :=
  ∀ m ∈ g.msgs, ∃ w, Reach G m.1 w ∧ m.2 = G.gid w

/-- Every stored label is bounded by the vertex's own gid. -/
def InvU (G : WGraph n P) (g : GState n P) : Prop :=
  ∀ p x, (g.parts p).comp x ≤ G.gid x

/-- Every inner vertex is either fully pushed or still on the frontier. -/
def InvI (G : WGraph n P) (g : GState n P) : Prop :=
  ∀ p v, G.owner v = p →
    relaxedAt G (g.parts p).comp v ∨ v ∈ (g.parts p).curr

/-- Every outer mirror dominates its owner's value, or a message no larger
than the mirror is still in flight towards the owner. -/
def InvO (G : WGraph n P) (g : GState n P) : Prop :=
  ∀ p u, isOuter G p u →
    (g.parts (G.owner u)).comp u ≤ (g.parts p).comp u ∨
      ∃ c, (u, c) ∈ g.msgs ∧ c ≤ (g.parts p).comp u

/-- The inductive invariant of the whole computation. -/
def Good (G : WGraph n P) (g : GState n P) : Prop :=
  InvV G g ∧ InvVm G g ∧ InvU G g ∧ InvI G g ∧ InvO G g

/-! ### Global superstep lemmas -/

theorem stepAll_parts (G : WGraph n P) (fs : Fin P → Finset (Fin n) → List (Fin n))
    (ds : Fin P → List (Fin n × ℕ) → List (Fin n × ℕ)) (g : GState n P) (p : Fin P) :
    (stepAll G fs ds g).parts p =
      swapLS (incPassed G p fs (ds p g.msgs) (g.parts p)) := rfl

theorem stepAll_msgs_mem (G : WGraph n P) (fs : Fin P → Finset (Fin n) → List (Fin n))
    (ds : Fin P → List (Fin n × ℕ) → List (Fin n × ℕ)) (g : GState n P) (m : Fin n × ℕ) :
    m ∈ (stepAll G fs ds g).msgs ↔
      ∃ p, m ∈ sendMsgs G p (incPassed G p fs (ds p g.msgs) (g.parts p)) := by
  show m ∈ (((List.finRange P).map
    (fun p => (incEvalPart G p fs (ds p g.msgs) (g.parts p)).2.2)).flatten) ↔ _
  rw [List.mem_flatten]
  constructor
  · rintro ⟨l, hl, hm⟩
    rcases List.mem_map.1 hl with ⟨p, _, rfl⟩
    exact ⟨p, hm⟩
  · rintro ⟨p, hm⟩
    exact ⟨_, List.mem_map_of_mem _ (List.mem_finRange p), hm⟩

theorem pevalAll_parts (G : WGraph n P) (fs : Fin P → Finset (Fin n) → List (Fin n))
    (p : Fin P) :
    (pevalAll G fs).parts p = swapLS (pevPassed G p fs (initLS G)) := rfl

theorem pevalAll_msgs_mem (G : WGraph n P) (fs : Fin P → Finset (Fin n) → List (Fin n))
    (m : Fin n × ℕ) :
    m ∈ (pevalAll G fs).msgs ↔
      ∃ p, m ∈ sendMsgs G p (pevPassed G p fs (initLS G)) := by
  show m ∈ (((List.finRange P).map
    (fun p => (pevalPart G p fs (initLS G)).2.2)).flatten) ↔ _
  rw [List.mem_flatten]
  constructor
  · rintro ⟨l, hl, hm⟩
    rcases List.mem_map.1 hl with ⟨p, _, rfl⟩
    exact ⟨p, hm⟩
  · rintro ⟨p, hm⟩
    exact ⟨_, List.mem_map_of_mem _ (List.mem_finRange p), hm⟩

theorem stepAll_pending_elim {G : WGraph n P}
    {fs : Fin P → Finset (Fin n) → List (Fin n)}
    {ds : Fin P → List (Fin n × ℕ) → List (Fin n × ℕ)} {g : GState n P}
    (h : (stepAll G fs ds g).pending = false) :
    (stepAll G fs ds g).msgs = [] ∧
      ∀ p v, G.owner v = p → v ∉ ((stepAll G fs ds g).parts p).curr := by
  have h' := Bool.or_eq_false_iff.1 h
  constructor
  · have h2 : ((stepAll G fs ds g).msgs).isEmpty = true := by
      have := h'.2
      rwa [Bool.not_eq_false'] at this
    exact List.isEmpty_iff.1 h2
  · intro p v hv hvc
    have hp := List.any_eq_false.1 h'.1 p (List.mem_finRange p)
    exact hp (decide_eq_true ⟨v, hvc, hv⟩)

theorem pevalAll_pending_elim {G : WGraph n P}
    {fs : Fin P → Finset (Fin n) → List (Fin n)}
    (h : (pevalAll G fs).pending = false) :
    (pevalAll G fs).msgs = [] ∧
      ∀ p v, G.owner v = p → v ∉ ((pevalAll G fs).parts p).curr := by
  have h' := Bool.or_eq_false_iff.1 h
  constructor
  · have h2 : ((pevalAll G fs).msgs).isEmpty = true := by
      have := h'.2
      rwa [Bool.not_eq_false'] at this
    exact List.isEmpty_iff.1 h2
  · intro p v hv hvc
    have hp := List.any_eq_false.1 h'.1 p (List.mem_finRange p)
    exact hp (decide_eq_true ⟨v, hvc, hv⟩)

theorem peval_good {G : WGraph n P} (hU : UndirectedG G)
    {fs : Fin P → Finset (Fin n) → List (Fin n)} (hfs : FSchedOk fs) :
    Good G (pevalAll G fs) := by
  have hV : InvV G (pevalAll G fs) := by
    intro p
    rw [pevalAll_parts, swapLS_comp]
    exact pev_validMap hU p fs
  refine ⟨hV, ?_, ?_, ?_, ?_⟩
  · intro m hm
    rcases (pevalAll_msgs_mem G fs m).1 hm with ⟨p, hp⟩
    rcases (mem_sendMsgs G p _ m).1 hp with ⟨_, _, hval⟩
    rcases pev_validMap hU p fs (G := G) m.1 with ⟨w, hw, he⟩
    exact ⟨w, hw, hval.trans he⟩
  · intro p x
    rw [pevalAll_parts, swapLS_comp]
    exact pev_comp_le_gid G p fs x
  · intro p v hv
    rw [pevalAll_parts, swapLS_comp, swapLS_curr]
    exact pev_relaxed hfs v hv
  · intro p u hout
    by_cases hmem : u ∈ (pevPassed G p fs (initLS G)).nextm
    · right
      refine ⟨(pevPassed G p fs (initLS G)).comp u, ?_, ?_⟩
      · exact (pevalAll_msgs_mem G fs _).2
          ⟨p, (mem_sendMsgs G p _ _).2 ⟨hout, hmem, rfl⟩⟩
      · rw [pevalAll_parts, swapLS_comp]
    · left
      rw [pevalAll_parts, pevalAll_parts, swapLS_comp, swapLS_comp,
        pev_comp_unchanged hmem]
      exact pev_comp_le_gid G (G.owner u) fs u

theorem step_good {G : WGraph n P} (hU : UndirectedG G)
    {fs : Fin P → Finset (Fin n) → List (Fin n)} (hfs : FSchedOk fs)
    {ds : Fin P → List (Fin n × ℕ) → List (Fin n × ℕ)} (hds : DSchedOk G ds)
    {g : GState n P} (hg : Good G g) : Good G (stepAll G fs ds g) := by
  obtain ⟨hV, hVm, hU2, hI, hO⟩ := hg
  have hD : ∀ p, ∀ m ∈ ds p g.msgs, ∃ w, Reach G m.1 w ∧ m.2 = G.gid w :=
    fun p m hm => hVm m ((hds p g.msgs m).1 hm).1
  have hV' : InvV G (stepAll G fs ds g) := by
    intro p
    rw [stepAll_parts, swapLS_comp]
    exact inc_validMap hU p fs (hV p) (hD p)
  refine ⟨hV', ?_, ?_, ?_, ?_⟩
  · intro m hm
    rcases (stepAll_msgs_mem G fs ds g m).1 hm with ⟨p, hp⟩
    rcases (mem_sendMsgs G p _ m).1 hp with ⟨_, _, hval⟩
    rcases inc_validMap hU p fs (hV p) (hD p) m.1 with ⟨w, hw, he⟩
    exact ⟨w, hw, hval.trans he⟩
  · intro p x
    rw [stepAll_parts, swapLS_comp]
    exact le_trans (inc_comp_mono G p fs _ _ x) (hU2 p x)
  · intro p v hv
    rw [stepAll_parts, swapLS_comp, swapLS_curr]
    exact inc_relaxed hfs _ _ (fun w hw => hI p w hw) v hv
  · intro p u hout
    have hq : G.owner u ≠ p := hout.1
    by_cases hmem : u ∈ (incPassed G p fs (ds p g.msgs) (g.parts p)).nextm
    · right
      refine ⟨(incPassed G p fs (ds p g.msgs) (g.parts p)).comp u, ?_, ?_⟩
      · exact (stepAll_msgs_mem G fs ds g _).2
          ⟨p, (mem_sendMsgs G p _ _).2 ⟨hout, hmem, rfl⟩⟩
      · rw [stepAll_parts, swapLS_comp]
    · have htgt : ∀ m ∈ ds p g.msgs, m.1 ≠ u := by
        intro m hm he
        exact hq (he ▸ ((hds p g.msgs m).1 hm).2)
      have hunch : (incPassed G p fs (ds p g.msgs) (g.parts p)).comp u
          = (g.parts p).comp u := inc_comp_unchanged htgt hmem
      left
      rw [stepAll_parts, stepAll_parts, swapLS_comp, swapLS_comp, hunch]
      rcases hO p u hout with hle | ⟨c, hcm, hcle⟩
      · exact le_trans (inc_comp_mono G (G.owner u) fs _ _ u) hle
      · have hdel : (u, c) ∈ ds (G.owner u) g.msgs :=
          (hds (G.owner u) g.msgs (u, c)).2 ⟨hcm, rfl⟩
        exact le_trans (inc_drain_le G (G.owner u) fs _ _ hdel) hcle

theorem runGen_good {G : WGraph n P} (hU : UndirectedG G)
    {fs : ℕ → Fin P → Finset (Fin n) → List (Fin n)}
    (hfs : ∀ k, FSchedOk (fs k))
    {ds : ℕ → Fin P → List (Fin n × ℕ) → List (Fin n × ℕ)}
    (hds : ∀ k, DSchedOk G (ds k)) :
    ∀ k, Good G (runGen G fs ds k) := by
  intro k
  induction k with
  | zero => exact peval_good hU (hfs 0)
  | succ k ih => exact step_good hU (hfs (k + 1)) (hds (k + 1)) ih

/-! ### Correctness at a converged state -/

theorem reach_symm {G : WGraph n P} (hU : UndirectedG G) {v w : Fin n}
    (h : Reach G v w) : Reach G w v := by
  induction h with
  | refl => exact Relation.ReflTransGen.refl
  | tail _ hedge ih => exact Relation.ReflTransGen.head (hU _ _ hedge) ih

theorem terminal_correct {G : WGraph n P} (hU : UndirectedG G) {g : GState n P}
    (hg : Good G g) (hm : g.msgs = [])
    (hc : ∀ p v, G.owner v = p → v ∉ (g.parts p).curr) :
    ∀ p v, G.owner v = p ∨ isOuter G p v →
      (g.parts p).comp v = minReachGid G v := by
  obtain ⟨hV, _, hUb, hI, hO⟩ := hg
  have hrel : ∀ p v, G.owner v = p → relaxedAt G (g.parts p).comp v :=
    fun p v hv => (hI p v hv).resolve_right (hc p v hv)
  have hown : ∀ p u, isOuter G p u →
      (g.parts (G.owner u)).comp u ≤ (g.parts p).comp u := by
    intro p u hout
    rcases hO p u hout with h | ⟨c, hcm, _⟩
    · exact h
    · rw [hm] at hcm
      exact absurd hcm (List.not_mem_nil _)
  have hchain : ∀ w v, Reach G w v →
      (g.parts (G.owner v)).comp v ≤ (g.parts (G.owner w)).comp w := by
    intro w v hreach
    induction hreach with
    | refl => exact le_refl _
    | @tail b c _ hedge ih =>
      have step1 : (g.parts (G.owner b)).comp c ≤ (g.parts (G.owner b)).comp b :=
        hrel (G.owner b) b rfl c hedge
      have step2 : (g.parts (G.owner c)).comp c ≤ (g.parts (G.owner b)).comp c := by
        by_cases hco : G.owner c = G.owner b
        · rw [hco]
        · exact hown (G.owner b) c ⟨hco, b, rfl, hedge⟩
      exact step2.trans (step1.trans ih)
  have upper : ∀ v, (g.parts (G.owner v)).comp v ≤ minReachGid G v := by
    intro v
    rcases exists_minReachGid G v with ⟨w, hw, he⟩
    calc (g.parts (G.owner v)).comp v
        ≤ (g.parts (G.owner w)).comp w := hchain w v (reach_symm hU hw)
      _ ≤ G.gid w := hUb (G.owner w) w
      _ = minReachGid G v := he
  have lower : ∀ (p : Fin P) (v : Fin n), minReachGid G v ≤ (g.parts p).comp v := by
    intro p v
    rcases hV p v with ⟨w, hw, he⟩
    exact he ▸ minReachGid_le hw
  intro p v hv
  rcases hv with hv | hv
  · exact le_antisymm (hv ▸ upper v) (lower p v)
  · obtain ⟨_, x, hxp, hvadj⟩ := hv
    have hx : (g.parts p).comp x = minReachGid G x :=
      le_antisymm (hxp ▸ upper x) (lower p x)
    have hxv : Reach G x v := Relation.ReflTransGen.single hvadj
    have hmin : minReachGid G x ≤ minReachGid G v :=
      minReachGid_le_minReachGid (fun w hw => Relation.ReflTransGen.trans hxv hw)
    refine le_antisymm ?_ (lower p v)
    calc (g.parts p).comp v ≤ (g.parts p).comp x := hrel p x hxp v hvadj
      _ = minReachGid G x := hx
      _ ≤ minReachGid G v := hmin

theorem runGen_zero (G : WGraph n P)
    (fs : ℕ → Fin P → Finset (Fin n) → List (Fin n))
    (ds : ℕ → Fin P → List (Fin n × ℕ) → List (Fin n × ℕ)) :
    runGen G fs ds 0 = pevalAll G (fs 0) := rfl

theorem runGen_succ (G : WGraph n P)
    (fs : ℕ → Fin P → Finset (Fin n) → List (Fin n))
    (ds : ℕ → Fin P → List (Fin n × ℕ) → List (Fin n × ℕ)) (k : ℕ) :
    runGen G fs ds (k + 1) =
      stepAll G (fs (k + 1)) (ds (k + 1)) (runGen G fs ds k) := rfl

/-- Convergence under arbitrary valid schedules: if after `PEval` and `k`
incremental supersteps no partition reports pending work, every label
equals the least reachable gid. -/
theorem runGen_converges {G : WGraph n P} (hU : UndirectedG G)
    {fs : ℕ → Fin P → Finset (Fin n) → List (Fin n)}
    (hfs : ∀ k, FSchedOk (fs k))
    {ds : ℕ → Fin P → List (Fin n × ℕ) → List (Fin n × ℕ)}
    (hds : ∀ k, DSchedOk G (ds k)) (k : ℕ)
    (hp : (runGen G fs ds k).pending = false) :
    ∀ p v, G.owner v = p ∨ isOuter G p v →
      ((runGen G fs ds k).parts p).comp v = minReachGid G v := by
  have hgood := runGen_good hU hfs hds k
  cases k with
  | zero =>
    obtain ⟨hm, hc⟩ := pevalAll_pending_elim hp
    exact terminal_correct hU hgood hm hc
  | succ k =>
    obtain ⟨hm, hc⟩ := stepAll_pending_elim hp
    exact terminal_correct hU hgood hm hc

theorem canonF_ok : FSchedOk (canonF : Fin P → Finset (Fin n) → List (Fin n)) := by
  intro p S v
  simp [canonF, List.mem_filter, List.mem_finRange]

theorem canonD_ok (G : WGraph n P) : DSchedOk G (canonD G) := by
  intro p ms m
  simp [canonD, List.mem_filter]

theorem drainStep_noop {ls : LState n} {m : Fin n × ℕ} (h : ¬ m.2 < ls.comp m.1) :
    drainStep ls m = ls := by
  unfold drainStep
  rw [if_neg h]

theorem pushOne_noop {cid : ℕ} {ls : LState n} {u : Fin n} (h : ¬ cid < ls.comp u) :
    pushOne cid ls u = ls := by
  unfold pushOne
  rw [if_neg h]

/-! ### The claims -/

/-- C1: For any undirected graph (self-loops and multi-edges allowed, any
partitioning), running `PEval` once and then `IncEval` repeatedly until no
partition reports pending work assigns to every vertex slot (inner or
outer) a `comp_id` equal to the minimum global identifier among the
vertices reachable from it. -/
theorem wcc_converges (G : WGraph n P) (hU : UndirectedG G) (k : ℕ)
    (hp : (run G k).pending = false) :
    ∀ p v, G.owner v = p ∨ isOuter G p v →
      ((run G k).parts p).comp v = minReachGid G v :=
  runGen_converges hU (fun _ => canonF_ok) (fun _ => canonD_ok G) k hp

/-- C2: labels never increase: each single relaxation (push step or message
application) only lowers a label or leaves it unchanged, the propagation
pass of `PEval` only lowers labels below their assigned gids, and across
supersteps every vertex's `comp_id` sequence is non-increasing. -/
theorem wcc_comp_monotone :
    (∀ (cid : ℕ) (ls : LState n) (u x : Fin n),
        (pushOne cid ls u).comp x ≤ ls.comp x) ∧
    (∀ (ls : LState n) (m : Fin n × ℕ) (x : Fin n),
        (drainStep ls m).comp x ≤ ls.comp x) ∧
    (∀ (G : WGraph n P) (p : Fin P)
        (fs : Fin P → Finset (Fin n) → List (Fin n)) (ls : LState n) (x : Fin n),
        (pevPassed G p fs ls).comp x ≤ (assignPhase G p ls).comp x) ∧
    (∀ (G : WGraph n P) (k : ℕ) (p : Fin P) (v : Fin n),
        ((run G (k + 1)).parts p).comp v ≤ ((run G k).parts p).comp v) := by
  refine ⟨fun cid ls u x => (evol_pushOne cid ls u).1 x,
    fun ls m x => (evolD_drainStep ls m).1 x,
    fun G p fs ls x => (evol_pushPass G _ (assignPhase G p ls)).1 x,
    fun G k p v => ?_⟩
  exact inc_comp_mono G p canonF (canonD G p (run G k).msgs) ((run G k).parts p) v

/-- C3: processing one frontier vertex `v` with `cid = comp_id[v]` lowers
every outgoing neighbor whose label exceeds `cid` to the minimum of its
current value and `cid` and records it in `next_modified`; all other
neighbors keep their labels and their `next_modified` membership, and
`curr_modified` is untouched. -/
theorem wcc_push_relaxation (G : WGraph n P) (ls : LState n) (v x : Fin n) :
    ((pushVertex G ls v).comp x =
      if x ∈ G.adj v ∧ ls.comp v < ls.comp x then atomic_min (ls.comp x) (ls.comp v)
      else ls.comp x) ∧
    (x ∈ (pushVertex G ls v).nextm ↔
      x ∈ ls.nextm ∨ (x ∈ G.adj v ∧ ls.comp v < ls.comp x)) ∧
    (pushVertex G ls v).curr = ls.curr := by
  refine ⟨?_, pushVertex_nextm_mem G ls v x, ?_⟩
  · rw [pushVertex_comp]
    by_cases h : x ∈ G.adj v ∧ ls.comp v < ls.comp x
    · rw [if_pos h, if_pos h, atomic_min, min_eq_right h.2.le]
    · rw [if_neg h, if_neg h]
  · rw [pushVertex_eq_pushList, pushList_curr]

/-- C9: the guarded atomic-minimum relaxation is idempotent: applying the
same message or the same push a second time changes nothing. -/
theorem wcc_relax_idempotent (ls : LState n) (m : Fin n × ℕ) (cid : ℕ) (u : Fin n) :
    drainStep (drainStep ls m) m = drainStep ls m ∧
      pushOne cid (pushOne cid ls u) u = pushOne cid ls u := by
  constructor
  · by_cases h : m.2 < ls.comp m.1
    · have hc : (drainStep ls m).comp m.1 = atomic_min (ls.comp m.1) m.2 := by
        rw [drainStep_comp, if_pos ⟨rfl, h⟩]
      refine drainStep_noop ?_
      rw [hc]
      exact not_lt.2 (min_le_right _ _)
    · rw [drainStep_noop h]
      exact drainStep_noop h
  · by_cases h : cid < ls.comp u
    · have hc : (pushOne cid ls u).comp u = atomic_min (ls.comp u) cid := by
        rw [pushOne_comp, if_pos ⟨rfl, h⟩]
        exact (min_eq_right h.le).symm
      refine pushOne_noop ?_
      rw [hc]
      exact not_lt.2 (min_le_right _ _)
    · rw [pushOne_noop h]
      exact pushOne_noop h

/-- C4: applying one delivered message `(vertex, msg_label)` lowers the
target's label to the minimum exactly when `comp_id[vertex] > msg_label`,
records the target in `curr_modified` (never in `next_modified`), touches
no other label, and a recorded inner target is part of the frontier set
the same superstep's propagation pass will push from. -/
theorem wcc_message_application (G : WGraph n P) (ls : LState n) (m : Fin n × ℕ) :
    ((drainStep ls m).comp m.1 =
      if m.2 < ls.comp m.1 then atomic_min (ls.comp m.1) m.2 else ls.comp m.1) ∧
    (∀ x, x ∈ (drainStep ls m).curr ↔
      x ∈ ls.curr ∨ (x = m.1 ∧ m.2 < ls.comp m.1)) ∧
    (∀ x, x ≠ m.1 → (drainStep ls m).comp x = ls.comp x) ∧
    (∀ D : List (Fin n × ℕ), (drain D ls).nextm = ls.nextm) ∧
    (∀ p, G.owner m.1 = p → m.2 < ls.comp m.1 →
      m.1 ∈ frontSet G p (drainStep ls m)) := by
  refine ⟨?_, fun x => drainStep_curr_mem ls m x, fun x hx => ?_, fun D => ?_, ?_⟩
  · rw [drainStep_comp]
    by_cases h : m.2 < ls.comp m.1
    · rw [if_pos ⟨rfl, h⟩, if_pos h]
    · rw [if_neg (fun hc => h hc.2), if_neg h]
  · rw [drainStep_comp, if_neg (fun hc => hx hc.1)]
  · exact (evolD_drain D ls).2.2.2
  · intro p hp hlt
    exact (mem_frontSet G p _ m.1).2
      ⟨(drainStep_curr_mem ls m m.1).2 (Or.inr ⟨rfl, hlt⟩), hp⟩

/-- C5: after the assignment phase of `PEval`, every inner vertex carries
its own gid and sits in `curr_modified`, every outer vertex carries its own
gid, and `PEval` is exactly that phase followed by a single propagation
pass (no messages are read). -/
theorem wcc_peval_assign (G : WGraph n P) (p : Fin P) (ls : LState n) :
    (∀ v, G.owner v = p →
      (assignPhase G p ls).comp v = G.gid v ∧ v ∈ (assignPhase G p ls).curr) ∧
    (∀ v, isOuter G p v → (assignPhase G p ls).comp v = G.gid v) ∧
    (∀ fs, pevalPart G p fs ls =
      (swapLS (pushPass G (fs p (frontSet G p (assignPhase G p ls)))
          (assignPhase G p ls)),
        forceOf G p (pushPass G (fs p (frontSet G p (assignPhase G p ls)))
          (assignPhase G p ls)),
        sendMsgs G p (pushPass G (fs p (frontSet G p (assignPhase G p ls)))
          (assignPhase G p ls)))) := by
  refine ⟨fun v hv => ⟨?_, ?_⟩, fun v hv => ?_, fun fs => rfl⟩
  · rw [assignPhase_comp, if_pos (Or.inl hv)]
  · exact (assignPhase_curr_mem G p ls v).2 (Or.inr hv)
  · rw [assignPhase_comp, if_pos (Or.inr hv)]

/-- C6: both entry points request another superstep exactly when the
freshly built `next_modified` holds at least one inner vertex; outer
entries alone never trigger the request. -/
theorem wcc_force_continue_iff (G : WGraph n P) (p : Fin P)
    (fs : Fin P → Finset (Fin n) → List (Fin n)) (ls : LState n) :
    (∀ D, (incEvalPart G p fs D ls).2.1 = true ↔
      ∃ v ∈ (incPassed G p fs D ls).nextm, G.owner v = p) ∧
    ((pevalPart G p fs ls).2.1 = true ↔
      ∃ v ∈ (pevPassed G p fs ls).nextm, G.owner v = p) :=
  ⟨fun _ => decide_eq_true_iff, decide_eq_true_iff⟩

/-- C7: the outbound messages of either entry point are exactly one
message per outer vertex in `next_modified`, carrying that vertex's current
label; inner vertices and unmodified outer vertices produce nothing. -/
theorem wcc_outbound_messages (G : WGraph n P) (p : Fin P)
    (fs : Fin P → Finset (Fin n) → List (Fin n)) (ls : LState n) :
    (∀ D m, m ∈ (incEvalPart G p fs D ls).2.2 ↔
      isOuter G p m.1 ∧ m.1 ∈ (incPassed G p fs D ls).nextm ∧
        m.2 = (incPassed G p fs D ls).comp m.1) ∧
    (∀ m, m ∈ (pevalPart G p fs ls).2.2 ↔
      isOuter G p m.1 ∧ m.1 ∈ (pevPassed G p fs ls).nextm ∧
        m.2 = (pevPassed G p fs ls).comp m.1) :=
  ⟨fun _ m => mem_sendMsgs G p _ m, fun m => mem_sendMsgs G p _ m⟩

/-- C8: over the same partitioned graph, any two executions that differ
only in the processing order of frontier vertices and in the order or
duplication of message delivery produce, at their respective convergence
points, the same label for every vertex slot. -/
theorem wcc_result_deterministic (G : WGraph n P) (hU : UndirectedG G)
    (fs1 fs2 : ℕ → Fin P → Finset (Fin n) → List (Fin n))
    (ds1 ds2 : ℕ → Fin P → List (Fin n × ℕ) → List (Fin n × ℕ))
    (hfs1 : ∀ k, FSchedOk (fs1 k)) (hds1 : ∀ k, DSchedOk G (ds1 k))
    (hfs2 : ∀ k, FSchedOk (fs2 k)) (hds2 : ∀ k, DSchedOk G (ds2 k))
    (k1 k2 : ℕ)
    (h1 : (runGen G fs1 ds1 k1).pending = false)
    (h2 : (runGen G fs2 ds2 k2).pending = false) :
    ∀ p v, G.owner v = p ∨ isOuter G p v →
      ((runGen G fs1 ds1 k1).parts p).comp v =
        ((runGen G fs2 ds2 k2).parts p).comp v := by
  intro p v hv
  rw [runGen_converges hU hfs1 hds1 k1 h1 p v hv,
    runGen_converges hU hfs2 hds2 k2 h2 p v hv]

/-! ### Congruence of a superstep in the outer part of the frontier -/

theorem pushVertex_congr (G : WGraph n P) {s s' : LState n} (hc : s'.comp = s.comp)
    (hn : s'.nextm = s.nextm) (v : Fin n) :
    (pushVertex G s' v).comp = (pushVertex G s v).comp ∧
      (pushVertex G s' v).nextm = (pushVertex G s v).nextm := by
  constructor
  · funext x
    rw [pushVertex_comp, pushVertex_comp, hc]
  · ext x
    rw [pushVertex_nextm_mem, pushVertex_nextm_mem, hc, hn]

theorem pushPass_congr (G : WGraph n P) (L : List (Fin n)) :
    ∀ s s' : LState n, s'.comp = s.comp → s'.nextm = s.nextm →
      (pushPass G L s').comp = (pushPass G L s).comp ∧
        (pushPass G L s').nextm = (pushPass G L s).nextm := by
  induction L with
  | nil => intro s s' hc hn; exact ⟨hc, hn⟩
  | cons u rest ih =>
    intro s s' hc hn
    rw [pushPass_cons, pushPass_cons]
    exact ih _ _ (pushVertex_congr G hc hn u).1 (pushVertex_congr G hc hn u).2

theorem drain_congr (G : WGraph n P) (p : Fin P) (D : List (Fin n × ℕ)) :
    ∀ s s' : LState n, s'.comp = s.comp →
      (∀ v, G.owner v = p → (v ∈ s'.curr ↔ v ∈ s.curr)) →
      (drain D s').comp = (drain D s).comp ∧
        (∀ v, G.owner v = p → (v ∈ (drain D s').curr ↔ v ∈ (drain D s).curr)) := by
  induction D with
  | nil => intro s s' hc hcu; exact ⟨hc, hcu⟩
  | cons m rest ih =>
    intro s s' hc hcu
    show (drain rest (drainStep s' m)).comp = (drain rest (drainStep s m)).comp ∧ _
    refine ih _ _ ?_ ?_
    · funext x
      rw [drainStep_comp, drainStep_comp, hc]
    · intro v hv
      rw [drainStep_curr_mem, drainStep_curr_mem, hc, hcu v hv]

theorem forceOf_congr (G : WGraph n P) (p : Fin P) {s s' : LState n}
    (hn : s'.nextm = s.nextm) : forceOf G p s' = forceOf G p s := by
  unfold forceOf
  rw [hn]

theorem sendMsgs_congr (G : WGraph n P) (p : Fin P) {s s' : LState n}
    (hn : s'.nextm = s.nextm) (hc : s'.comp = s.comp) :
    sendMsgs G p s' = sendMsgs G p s := by
  unfold sendMsgs
  simp only [hn, hc]

/-- C10: outer vertices left in `curr_modified` by the buffer swap are
inert: two `IncEval` inputs that agree everywhere except on outer members
of `curr_modified` produce the same labels, the same new frontier, the same
`ForceContinue` report and the same messages; the swap stores the old
(possibly outer-polluted) frontier in `next_modified`, which the next
`IncEval` clears. -/
theorem wcc_stale_outer_frontier (G : WGraph n P) (p : Fin P)
    (fs : Fin P → Finset (Fin n) → List (Fin n))
    (D : List (Fin n × ℕ)) (ls ls' : LState n)
    (hcomp : ls'.comp = ls.comp) (_hnext : ls'.nextm = ls.nextm)
    (hcurr : ∀ v, G.owner v = p → (v ∈ ls'.curr ↔ v ∈ ls.curr)) :
    ((incEvalPart G p fs D ls').1.comp = (incEvalPart G p fs D ls).1.comp ∧
      (incEvalPart G p fs D ls').1.curr = (incEvalPart G p fs D ls).1.curr ∧
      (incEvalPart G p fs D ls').2.1 = (incEvalPart G p fs D ls).2.1 ∧
      (incEvalPart G p fs D ls').2.2 = (incEvalPart G p fs D ls).2.2) ∧
    (incEvalPart G p fs D ls).1.nextm = (incMid D ls).curr ∧
    (incMid D ls).nextm = ∅ := by
  have hmid := drain_congr G p D (clearNext ls) (clearNext ls') hcomp hcurr
  have hmidn : (incMid D ls').nextm = (incMid D ls).nextm := by
    show (drain D (clearNext ls')).nextm = (drain D (clearNext ls)).nextm
    rw [(evolD_drain D (clearNext ls')).2.2.2, (evolD_drain D (clearNext ls)).2.2.2]
    rfl
  have hfront : frontSet G p (incMid D ls') = frontSet G p (incMid D ls) := by
    ext v
    rw [mem_frontSet, mem_frontSet]
    constructor
    · rintro ⟨hvc, hvp⟩
      exact ⟨(hmid.2 v hvp).1 hvc, hvp⟩
    · rintro ⟨hvc, hvp⟩
      exact ⟨(hmid.2 v hvp).2 hvc, hvp⟩
  have hpassed' : incPassed G p fs D ls' =
      pushPass G (fs p (frontSet G p (incMid D ls))) (incMid D ls') := by
    unfold incPassed
    rw [hfront]
  have hpass := pushPass_congr G (fs p (frontSet G p (incMid D ls)))
    (incMid D ls) (incMid D ls') hmid.1 hmidn
  have hcomp2 : (incPassed G p fs D ls').comp = (incPassed G p fs D ls).comp := by
    rw [hpassed']
    exact hpass.1
  have hnext2 : (incPassed G p fs D ls').nextm = (incPassed G p fs D ls).nextm := by
    rw [hpassed']
    exact hpass.2
  refine ⟨⟨hcomp2, hnext2, ?_, ?_⟩, ?_, ?_⟩
  · exact forceOf_congr G p hnext2
  · exact sendMsgs_congr G p hnext2 hcomp2
  · show (swapLS (incPassed G p fs D ls)).nextm = (incMid D ls).curr
    rw [swapLS_nextm]
    exact (evol_pushPass G _ (incMid D ls)).2.2.2
  · show (drain D (clearNext ls)).nextm = ∅
    rw [(evolD_drain D (clearNext ls)).2.2.2]
    rfl

/-! ### Concrete instances for the witnesses -/

/-- A 3-vertex graph over 2 partitions: the edge `1 – 2` crosses the
partition cut, vertex `0` is isolated. -/
def Gex : WGraph 3 2 where
  gid := fun v => (v : ℕ)
  adj := ![[], [2], [1]]
  owner := ![0, 0, 1]

/-- A store whose labels all exceed the interesting message payloads. -/
def lsEx : LState 3 :=
  { comp := fun v => (v : ℕ) + 2, curr := ∅, nextm := ∅ }

/-- A store with an empty frontier. -/
def lsStaleA : LState 3 :=
  { comp := fun v => (v : ℕ), curr := ∅, nextm := ∅ }

/-- The same store with a stale outer vertex left in the frontier. -/
def lsStaleB : LState 3 :=
  { comp := fun v => (v : ℕ), curr := {2}, nextm := ∅ }

/-- An alternative frontier schedule: reversed enumeration. -/
def altF : Fin P → Finset (Fin n) → List (Fin n) :=
  fun p S => (canonF p S).reverse

/-- An alternative delivery schedule: every message applied twice. -/
def altD (G : WGraph n P) : Fin P → List (Fin n × ℕ) → List (Fin n × ℕ) :=
  fun p ms => canonD G p ms ++ canonD G p ms

theorem altF_ok : FSchedOk (altF : Fin P → Finset (Fin n) → List (Fin n)) := by
  intro p S v
  simp [altF, canonF, List.mem_filter, List.mem_finRange]

theorem altD_ok (G : WGraph n P) : DSchedOk G (altD G) := by
  intro p ms m
  simp [altD, canonD, List.mem_filter]

/-! ### Witnesses -/

theorem wcc_converges_witness :
    UndirectedG Gex ∧ (run Gex 1).pending = false ∧
      (∀ p v, Gex.owner v = p ∨ isOuter Gex p v →
        ((run Gex 1).parts p).comp v = minReachGid Gex v) :=
  ⟨by decide, by decide, wcc_converges Gex (by decide) 1 (by decide)⟩

theorem wcc_message_application_witness :
    Gex.owner (2 : Fin 3) = 1 ∧ (1 : ℕ) < lsEx.comp (2 : Fin 3) ∧
      (2 : Fin 3) ∈ frontSet Gex 1 (drainStep lsEx ((2 : Fin 3), (1 : ℕ))) :=
  ⟨by decide, by decide,
    (wcc_message_application Gex lsEx ((2 : Fin 3), (1 : ℕ))).2.2.2.2 1
      (by decide) (by decide)⟩

theorem wcc_peval_assign_witness :
    Gex.owner (0 : Fin 3) = 0 ∧ isOuter Gex 0 (2 : Fin 3) ∧
      ((assignPhase Gex 0 lsEx).comp 0 = Gex.gid 0 ∧
        (0 : Fin 3) ∈ (assignPhase Gex 0 lsEx).curr) ∧
      (assignPhase Gex 0 lsEx).comp 2 = Gex.gid 2 :=
  ⟨by decide, by decide, (wcc_peval_assign Gex 0 lsEx).1 0 (by decide),
    (wcc_peval_assign Gex 0 lsEx).2.1 2 (by decide)⟩

theorem wcc_result_deterministic_witness :
    UndirectedG Gex ∧
      (runGen Gex (fun _ => canonF) (fun _ => canonD Gex) 1).pending = false ∧
      (runGen Gex (fun _ => altF) (fun _ => altD Gex) 1).pending = false ∧
      (∀ p v, Gex.owner v = p ∨ isOuter Gex p v →
        ((runGen Gex (fun _ => canonF) (fun _ => canonD Gex) 1).parts p).comp v =
          ((runGen Gex (fun _ => altF) (fun _ => altD Gex) 1).parts p).comp v) :=
  ⟨by decide, by decide, by decide,
    wcc_result_deterministic Gex (by decide) _ _ _ _
      (fun _ => canonF_ok) (fun _ => canonD_ok Gex)
      (fun _ => altF_ok) (fun _ => altD_ok Gex) 1 1 (by decide) (by decide)⟩

theorem wcc_stale_outer_frontier_witness :
    lsStaleB.comp = lsStaleA.comp ∧ lsStaleB.nextm = lsStaleA.nextm ∧
      (∀ v, Gex.owner v = (0 : Fin 2) → (v ∈ lsStaleB.curr ↔ v ∈ lsStaleA.curr)) ∧
      (incEvalPart Gex 0 canonF [] lsStaleB).1.comp =
        (incEvalPart Gex 0 canonF [] lsStaleA).1.comp ∧
      (incEvalPart Gex 0 canonF [] lsStaleB).1.curr =
        (incEvalPart Gex 0 canonF [] lsStaleA).1.curr :=
  ⟨rfl, rfl, by decide,
    ((wcc_stale_outer_frontier Gex 0 canonF [] lsStaleA lsStaleB rfl rfl
      (by decide)).1).1,
    ((wcc_stale_outer_frontier Gex 0 canonF [] lsStaleA lsStaleB rfl rfl
      (by decide)).1).2.1⟩
